import Mathlib

/-!
Shallow embedding of the snippet-generation core
(src/native/search/src/snippet.rs).

Modelling conventions:
* the Rust `Score` type (`f32`) is modelled by `ℚ` (the weights the code
  builds are of the form 1/(1+df), and all comparisons are exact);
* source text is modelled as `List Char`; token and highlight offsets index
  that list (the Rust code uses byte offsets into a UTF-8 string);
* a `BTreeMap<String, Score>` is modelled as a lookup function
  `String → Option ℚ`;
* the token stream produced by the external tokenizer is modelled as an
  input `List Token` in stream order;
* fallible operations (`doc_freq`) return `Option`.
-/

/-- A lexical token produced by the tokenizer: its text and the offset span
of the token within the source text. -/
structure Token where
  text : String
  offset_from : Nat
  offset_to : Nat
  deriving Repr, DecidableEq

/-- A half-open interval [start, stop) marking a matched span. -/
structure HighlightSection where
  start : Nat
  stop : Nat
  deriving Repr, DecidableEq

/-- A scored candidate excerpt: cumulative score, start/stop offsets into
the source text, and the matched spans inside it. -/
structure FragmentCandidate where
  score : ℚ
  start_offset : Nat
  stop_offset : Nat
  num_chars : Nat
  highlighted : List HighlightSection
  deriving Repr, DecidableEq

/-- Create a basic FragmentCandidate: score and num_chars are 0, stop_offset
equals start_offset, highlighted is empty. -/
def FragmentCandidate.new (start_offset : Nat) : FragmentCandidate :=
  { score := 0, start_offset := start_offset, stop_offset := start_offset,
    num_chars := 0, highlighted := [] }

/-- Lowercasing of a token's text (str::to_lowercase), modelled characterwise. -/
def toLowercase (s : String) : String := ⟨s.data.map Char.toLower⟩

/-- Feed one token to a fragment: extend stop_offset to the token's end
offset; if the token's lowercased text is a key of the weight table, add
the weight to the score and record a highlight over the token's span. -/
def FragmentCandidate.try_add_token (c : FragmentCandidate) (token : Token)
    (terms : String → Option ℚ) : FragmentCandidate :=
  match terms (toLowercase token.text) with
  | some score =>
      { c with stop_offset := token.offset_to,
               score := c.score + score,
               highlighted := c.highlighted ++ [⟨token.offset_from, token.offset_to⟩] }
  | none => { c with stop_offset := token.offset_to }

/-- The loop body of search_fragments: consume the token stream, closing the
current fragment (pushing it if its score is positive) whenever the next
token's end offset would exceed the length bound. -/
def search_fragments_go (terms : String → Option ℚ) (max_num_chars : Nat) :
    List Token → FragmentCandidate → List FragmentCandidate
  | [], fragment => if 0 < fragment.score then [fragment] else []
  | next :: rest, fragment =>
      if max_num_chars < next.offset_to - fragment.start_offset then
        (if 0 < fragment.score then [fragment] else []) ++
          search_fragments_go terms max_num_chars rest
            ((FragmentCandidate.new next.offset_from).try_add_token next terms)
      else
        search_fragments_go terms max_num_chars rest
          (fragment.try_add_token next terms)

/-- Scan the token stream and emit the candidate fragments with positive
score, starting from a fragment anchored at offset 0. -/
def search_fragments (tokens : List Token) (terms : String → Option ℚ)
    (max_num_chars : Nat) : List FragmentCandidate :=
  search_fragments_go terms max_num_chars tokens (FragmentCandidate.new 0)

/-- Comparison of two rational scores, mirroring partial_cmp on non-NaN
floats. -/
def cmpQ (a b : ℚ) : Ordering :=
  if a < b then Ordering.lt else if b < a then Ordering.gt else Ordering.eq

/-- Comparison of two naturals. -/
def cmpNat (a b : Nat) : Ordering :=
  if a < b then Ordering.lt else if b < a then Ordering.gt else Ordering.eq

/-- Lexicographic comparison of two pairs of naturals, mirroring Ord on
(usize, usize). -/
def cmpPair (p q : Nat × Nat) : Ordering :=
  match cmpNat p.1 q.1 with
  | Ordering.eq => cmpNat p.2 q.2
  | o => o

/-- The comparator passed to max_by by select_best_fragment_combination:
compare scores; on a tie compare the offset pairs with the arguments
swapped, so that smaller offsets count as greater. -/
def fragCmp (l r : FragmentCandidate) : Ordering :=
  let cmp_score := cmpQ l.score r.score
  if cmp_score = Ordering.eq then
    cmpPair (r.start_offset, r.stop_offset) (l.start_offset, l.stop_offset)
  else cmp_score

/-- One step of the max_by fold: keep the accumulator only when it compares
strictly greater, so later equal elements replace earlier ones. -/
def betterFrag (acc x : FragmentCandidate) : FragmentCandidate :=
  if fragCmp acc x = Ordering.gt then acc else x

/-- Iterator::max_by over a list: none on the empty list, otherwise the
left fold of betterFrag. -/
def maxByFrag : List FragmentCandidate → Option FragmentCandidate
  | [] => none
  | x :: xs => some (xs.foldl betterFrag x)

/-- A fragment of a document together with the highlighted spans inside it,
expressed relative to the fragment's own text. -/
structure Snippet where
  fragments : List Char
  highlighted : List HighlightSection
  deriving Repr, DecidableEq

/-- Create a new, empty Snippet. -/
def Snippet.empty : Snippet := { fragments := [], highlighted := [] }

/-- The sub-range text[a..b] of a text, as a list slice. -/
def sliceL (l : List Char) (a b : Nat) : List Char := (l.drop a).take (b - a)

/-- Pick the best fragment with maxByFrag; copy its text sub-range and
re-base its highlights by subtracting its start offset. On an empty
candidate list return an empty snippet. -/
def select_best_fragment_combination (fragments : List FragmentCandidate)
    (text : List Char) : Snippet :=
  match maxByFrag fragments with
  | some fragment =>
      { fragments := sliceL text fragment.start_offset fragment.stop_offset,
        highlighted := fragment.highlighted.map fun item =>
          ⟨item.start - fragment.start_offset, item.stop - fragment.start_offset⟩ }
  | none => { fragments := [], highlighted := [] }

/-- The opening highlight marker string. -/
def markOpen : List Char := '<' :: 'b' :: '>' :: []

/-- The closing highlight marker string. -/
def markClose : List Char := '<' :: '/' :: 'b' :: '>' :: []

/-- The apostrophe character, written by code point. -/
def quoteChar : Char := Char.ofNat 39

/-- Minimal HTML-entity escaping of one character, as in
htmlescape::encode_minimal. -/
def encodeChar (c : Char) : List Char :=
  if c = '"' then '&' :: 'q' :: 'u' :: 'o' :: 't' :: ';' :: []
  else if c = '&' then '&' :: 'a' :: 'm' :: 'p' :: ';' :: []
  else if c = quoteChar then '&' :: '#' :: 'x' :: '2' :: '7' :: ';' :: []
  else if c = '<' then '&' :: 'l' :: 't' :: ';' :: []
  else if c = '>' then '&' :: 'g' :: 't' :: ';' :: []
  else [c]

/-- Minimal HTML-entity escaping of a string. -/
def encodeMinimal (l : List Char) : List Char := (l.map encodeChar).flatten

/-- The rendering loop of to_mark: walk the highlights with a cursor,
emitting the gap, the opening marker, the highlighted span and the closing
marker, then the trailing text after the loop. -/
def toMarkAux (frags : List Char) : Nat → List HighlightSection → List Char
  | start_from, [] => sliceL frags start_from frags.length
  | start_from, item :: rest =>
      sliceL frags start_from item.start ++ markOpen ++
        sliceL frags item.start item.stop ++ markClose ++
        toMarkAux frags item.stop rest

/-- Raw (unescaped) markup of a Snippet. -/
def Snippet.to_mark (s : Snippet) : List Char := toMarkAux s.fragments 0 s.highlighted

/-- The rendering loop of to_html: as toMarkAux, but every text segment is
passed through minimal HTML-entity escaping; the markers are inserted
verbatim. -/
def toHtmlAux (frags : List Char) : Nat → List HighlightSection → List Char
  | start_from, [] => encodeMinimal (sliceL frags start_from frags.length)
  | start_from, item :: rest =>
      encodeMinimal (sliceL frags start_from item.start) ++ markOpen ++
        encodeMinimal (sliceL frags item.start item.stop) ++ markClose ++
        toHtmlAux frags item.stop rest

/-- Escaped (HTML) markup of a Snippet. -/
def Snippet.to_html (s : Snippet) : List Char := toHtmlAux s.fragments 0 s.highlighted

/-- The in-order list of text segments the rendering loop visits:
gap, highlight, gap, highlight, ..., trailing gap. -/
def renderSegments (frags : List Char) : Nat → List HighlightSection → List (List Char)
  | start_from, [] => [sliceL frags start_from frags.length]
  | start_from, item :: rest =>
      sliceL frags start_from item.start :: sliceL frags item.start item.stop ::
        renderSegments frags item.stop rest

/-- Interleave a segment list with the highlight markers: the first segment
is unhighlighted, then marked and unmarked segments alternate. -/
def markedConcat : List (List Char) → List Char
  | [] => []
  | [u] => u
  | u :: h :: rest => u ++ markOpen ++ h ++ markClose ++ markedConcat rest

/-- Well-formedness of a highlight list relative to a text length and a
cursor: intervals are ordered, non-overlapping and inside the text. -/
def hlWF (len : Nat) : Nat → List HighlightSection → Bool
  | cur, [] => decide (cur ≤ len)
  | cur, item :: rest =>
      decide (cur ≤ item.start) && decide (item.start ≤ item.stop) &&
        hlWF len item.stop rest

/-- Inverse of minimal HTML-entity escaping: rewrite each of the five
entities back to its character. -/
def decodeMinimal : List Char → List Char
  | [] => []
  | '&' :: 'q' :: 'u' :: 'o' :: 't' :: ';' :: rest => '"' :: decodeMinimal rest
  | '&' :: 'a' :: 'm' :: 'p' :: ';' :: rest => '&' :: decodeMinimal rest
  | '&' :: '#' :: 'x' :: '2' :: '7' :: ';' :: rest => quoteChar :: decodeMinimal rest
  | '&' :: 'l' :: 't' :: ';' :: rest => '<' :: decodeMinimal rest
  | '&' :: 'g' :: 't' :: ';' :: rest => '>' :: decodeMinimal rest
  | c :: rest => c :: decodeMinimal rest

/-- Check that every special character in an escaped segment is part of an
entity: angle brackets and quotes never occur, and an ampersand only as the
first character of one of the five entities. -/
def escapedOK : List Char → Bool
  | [] => true
  | '&' :: 'q' :: 'u' :: 'o' :: 't' :: ';' :: rest => escapedOK rest
  | '&' :: 'a' :: 'm' :: 'p' :: ';' :: rest => escapedOK rest
  | '&' :: '#' :: 'x' :: '2' :: '7' :: ';' :: rest => escapedOK rest
  | '&' :: 'l' :: 't' :: ';' :: rest => escapedOK rest
  | '&' :: 'g' :: 't' :: ';' :: rest => escapedOK rest
  | c :: rest =>
      !(c = '&' || c = '<' || c = '>' || c = '"' || c = quoteChar) && escapedOK rest

/-- A query term: the field it belongs to and its text. -/
structure Term where
  field : Nat
  text : String
  deriving Repr, DecidableEq

/-- The default maximum number of chars of a snippet. -/
def DEFAULT_MAX_NUM_CHARS : Nat := 150

/-- The weight given to a term with the given document frequency. -/
def term_weight (doc_freq : Nat) : ℚ := 1 / (1 + (doc_freq : ℚ))

/-- The term-table construction loop of SnippetGenerator::create: skip terms
of other fields, propagate a doc_freq failure, drop zero-frequency terms and
insert the rest with weight 1/(1+df). -/
def create_terms_text (doc_freq : Term → Option Nat) (field : Nat) :
    List Term → (String → Option ℚ) → Option (String → Option ℚ)
  | [], acc => some acc
  | term :: rest, acc =>
      if term.field ≠ field then create_terms_text doc_freq field rest acc
      else
        match doc_freq term with
        | none => none
        | some d =>
            if 0 < d then
              create_terms_text doc_freq field rest
                (fun s => if s = term.text then some (term_weight d) else acc s)
            else create_terms_text doc_freq field rest acc

/-- The state of a snippet generator: the term weight table, the field and
the length bound. The external tokenizer is not part of the model. -/
structure SnippetGenerator where
  terms_text : String → Option ℚ
  field : Nat
  max_num_chars : Nat

/-- SnippetGenerator::create, with the searcher's doc_freq lookup and the
query's term enumeration passed as inputs. -/
def SnippetGenerator.create (doc_freq : Term → Option Nat)
    (query_terms : List Term) (field : Nat) : Option SnippetGenerator :=
  match create_terms_text doc_freq field query_terms (fun _ => none) with
  | none => none
  | some tt =>
      some { terms_text := tt, field := field,
             max_num_chars := DEFAULT_MAX_NUM_CHARS }

/-- SnippetGenerator::snippet on an already-tokenized text: run the fragment
generator, then the fragment selector. -/
def snippetOf (tokens : List Token) (text : List Char)
    (terms : String → Option ℚ) (max_num_chars : Nat) : Snippet :=
  select_best_fragment_combination (search_fragments tokens terms max_num_chars) text

/-- A concrete one-entry weight table used by witnesses. -/
def tblFox : String → Option ℚ := fun s => if s = "fox" then some 1 else none

/-- The concrete Snippet used by the rendering witnesses. -/
def snipW : Snippet := { fragments := "a<b & c".data, highlighted := [⟨2, 3⟩] }

/-- A concrete doc_freq lookup used by the create witness. -/
def dfW : Term → Option Nat := fun t => if t.text = "fox" then some 3 else some 0

/-- The generator the create witness expects. -/
def genW : SnippetGenerator :=
  { terms_text := fun s => if s = "fox" then some (term_weight 3) else none,
    field := 0, max_num_chars := 150 }

/-! Basic lemmas about try_add_token. -/

theorem try_add_of_none {c : FragmentCandidate} {next : Token}
    {terms : String → Option ℚ} (h : terms (toLowercase next.text) = none) :
    c.try_add_token next terms = { c with stop_offset := next.offset_to } := by
  simp [FragmentCandidate.try_add_token, h]

theorem try_add_of_some {c : FragmentCandidate} {next : Token}
    {terms : String → Option ℚ} {q : ℚ} (h : terms (toLowercase next.text) = some q) :
    c.try_add_token next terms =
      { c with stop_offset := next.offset_to, score := c.score + q,
               highlighted := c.highlighted ++ [⟨next.offset_from, next.offset_to⟩] } := by
  simp [FragmentCandidate.try_add_token, h]

theorem try_add_start (c : FragmentCandidate) (next : Token)
    (terms : String → Option ℚ) :
    (c.try_add_token next terms).start_offset = c.start_offset := by
  unfold FragmentCandidate.try_add_token
  split <;> rfl

theorem try_add_stop (c : FragmentCandidate) (next : Token)
    (terms : String → Option ℚ) :
    (c.try_add_token next terms).stop_offset = next.offset_to := by
  unfold FragmentCandidate.try_add_token
  split <;> rfl

/-! C1: graceful degradation when nothing matches. -/

theorem search_go_no_match (terms : String → Option ℚ) (n : Nat) :
    ∀ (tokens : List Token) (fragment : FragmentCandidate),
      (∀ t ∈ tokens, terms (toLowercase t.text) = none) →
      fragment.score = 0 →
      search_fragments_go terms n tokens fragment = [] := by
  intro tokens
  induction tokens with
  | nil =>
      intro fragment _ hs
      simp [search_fragments_go, hs]
  | cons next rest ih =>
      intro fragment hnone hs
      have hn : terms (toLowercase next.text) = none := hnone next (by simp)
      have hrest : ∀ t ∈ rest, terms (toLowercase t.text) = none :=
        fun t ht => hnone t (by simp [ht])
      have hadd : ∀ c : FragmentCandidate, c.score = 0 →
          (c.try_add_token next terms).score = 0 := by
        intro c hc
        rw [try_add_of_none hn]
        exact hc
      simp only [search_fragments_go]
      split
      · rw [ih _ hrest (hadd _ rfl)]
        simp [hs]
      · exact ih _ hrest (hadd _ hs)

/-- C1: for every token stream and weight table, if no token's lowercased
text is a key of the table, fragment generation returns an empty candidate
list and snippet selection returns the empty Snippet (empty text, no
highlights) rather than an error; an empty token stream (empty text) and an
always-none table (empty weight table) satisfy the hypothesis, so the same
empty Snippet results in those cases. -/
theorem no_match_yields_empty_snippet (tokens : List Token)
    (terms : String → Option ℚ) (n : Nat) (text : List Char)
    (h : ∀ t ∈ tokens, terms (toLowercase t.text) = none) :
    search_fragments tokens terms n = [] ∧
    snippetOf tokens text terms n = Snippet.empty := by
  have he : search_fragments tokens terms n = [] :=
    search_go_no_match terms n tokens _ h rfl
  exact ⟨he, by simp [snippetOf, he, select_best_fragment_combination, maxByFrag, Snippet.empty]⟩

theorem no_match_yields_empty_snippet_witness :
    search_fragments [⟨"cat", 0, 3⟩] (fun _ => none) 150 = [] ∧
    snippetOf [⟨"cat", 0, 3⟩] "cat".data (fun _ => none) 150 = Snippet.empty :=
  no_match_yields_empty_snippet _ _ _ _ (fun _ _ => rfl)

/-! C2: a match forces a non-empty candidate list. -/

theorem search_go_match_nonempty (terms : String → Option ℚ) (n : Nat)
    (hpos : ∀ s q, terms s = some q → 0 < q) :
    ∀ (tokens : List Token) (fragment : FragmentCandidate),
      0 ≤ fragment.score →
      (0 < fragment.score ∨ ∃ t ∈ tokens, (terms (toLowercase t.text)).isSome) →
      search_fragments_go terms n tokens fragment ≠ [] := by
  intro tokens
  induction tokens with
  | nil =>
      intro fragment _ hd
      rcases hd with hpos' | ⟨t, ht, _⟩
      · simp [search_fragments_go, hpos']
      · exact absurd ht (by simp)
  | cons next rest ih =>
      intro fragment hge hd
      simp only [search_fragments_go]
      rcases hmatch : terms (toLowercase next.text) with _ | q
      · have hd' : 0 < fragment.score ∨
            ∃ t ∈ rest, (terms (toLowercase t.text)).isSome := by
          rcases hd with h1 | ⟨t, ht, hsome⟩
          · exact Or.inl h1
          · rcases List.mem_cons.1 ht with rfl | htr
            · rw [hmatch] at hsome
              simp at hsome
            · exact Or.inr ⟨t, htr, hsome⟩
        split
        · rcases hd' with h1 | h1
          · simp [h1]
          · have hnew : ((FragmentCandidate.new next.offset_from).try_add_token
                next terms).score = 0 := by
              rw [try_add_of_none hmatch]
              rfl
            have := ih ((FragmentCandidate.new next.offset_from).try_add_token next terms)
              (le_of_eq hnew.symm) (by rw [hnew]; exact Or.inr h1)
            intro hcontra
            rcases List.append_eq_nil.mp hcontra with ⟨_, h2⟩
            exact this h2
        · have hsc : (fragment.try_add_token next terms).score = fragment.score := by
            rw [try_add_of_none hmatch]
          exact ih _ (by rw [hsc]; exact hge) (by rw [hsc]; exact hd')
      · have hq : 0 < q := hpos _ _ hmatch
        split
        · by_cases h1 : 0 < fragment.score
          · simp [h1]
          · have hnew : ((FragmentCandidate.new next.offset_from).try_add_token
                next terms).score = q := by
              rw [try_add_of_some hmatch]
              simp [FragmentCandidate.new]
            have := ih ((FragmentCandidate.new next.offset_from).try_add_token next terms)
              (by rw [hnew]; exact le_of_lt hq) (by rw [hnew]; exact Or.inl hq)
            intro hcontra
            rcases List.append_eq_nil.mp hcontra with ⟨_, h2⟩
            exact this h2
        · have hsc : (fragment.try_add_token next terms).score = fragment.score + q := by
            rw [try_add_of_some hmatch]
          have hpos' : 0 < (fragment.try_add_token next terms).score := by
            rw [hsc]
            linarith
          exact ih _ (le_of_lt hpos') (Or.inl hpos')

/-- C2: for every token stream and every weight table whose weights are all
strictly positive, if at least one token's lowercased text is a key of the
table then search_fragments returns a non-empty candidate list. -/
theorem match_yields_candidates (tokens : List Token) (terms : String → Option ℚ)
    (n : Nat) (hpos : ∀ s q, terms s = some q → 0 < q)
    (hmatch : ∃ t ∈ tokens, (terms (toLowercase t.text)).isSome) :
    search_fragments tokens terms n ≠ [] :=
  search_go_match_nonempty terms n hpos tokens _ le_rfl (Or.inr hmatch)

theorem match_yields_candidates_witness :
    search_fragments [⟨"fox", 4, 7⟩] tblFox 150 ≠ [] := by
  have hlow : toLowercase "fox" = "fox" := by decide
  exact match_yields_candidates _ _ _
    (by
      intro s q h
      unfold tblFox at h
      split at h
      · cases h
        norm_num
      · cases h)
    ⟨⟨"fox", 4, 7⟩, by simp, by rw [hlow]; simp [tblFox]⟩

/-! C4: length bound on candidate spans. -/

theorem search_go_span_bounded (terms : String → Option ℚ) (n : Nat) :
    ∀ (tokens : List Token) (fragment : FragmentCandidate),
      (∀ t ∈ tokens, t.offset_to - t.offset_from ≤ n) →
      fragment.stop_offset - fragment.start_offset ≤ n →
      ∀ c ∈ search_fragments_go terms n tokens fragment,
        c.stop_offset - c.start_offset ≤ n := by
  intro tokens
  induction tokens with
  | nil =>
      intro fragment _ hsp c hc
      simp only [search_fragments_go] at hc
      split at hc
      · rcases List.mem_singleton.1 hc with rfl
        exact hsp
      · exact absurd hc (by simp)
  | cons next rest ih =>
      intro fragment htok hsp c hc
      have htokr : ∀ t ∈ rest, t.offset_to - t.offset_from ≤ n :=
        fun t ht => htok t (by simp [ht])
      simp only [search_fragments_go] at hc
      split at hc
      · rcases List.mem_append.1 hc with h1 | h1
        · split at h1
          · rcases List.mem_singleton.1 h1 with rfl
            exact hsp
          · exact absurd h1 (by simp)
        · refine ih _ htokr ?_ c h1
          rw [try_add_stop, try_add_start]
          exact htok next (by simp)
      · next hle =>
          refine ih _ htokr ?_ c hc
          rw [try_add_stop, try_add_start]
          omega

/-- C4 counterexample: with max_num_chars = 5, a single matching token
spanning offsets [0, 12) produces a candidate whose span exceeds the bound,
so the claim as stated is false. -/
theorem span_bound_counterexample :
    ¬ (∀ c ∈ search_fragments [⟨"fox", 0, 12⟩] tblFox 5,
        c.stop_offset - c.start_offset ≤ 5) := by
  have h : toLowercase "fox" = "fox" := by decide
  norm_num [search_fragments, search_fragments_go, FragmentCandidate.try_add_token,
    FragmentCandidate.new, tblFox, h]

/-- C4 amended: every fragment candidate returned by search_fragments spans
at most the configured maximum length n (as an offset difference), provided
every token of the stream itself spans at most n. -/
theorem candidate_span_bounded (tokens : List Token) (terms : String → Option ℚ)
    (n : Nat) (htok : ∀ t ∈ tokens, t.offset_to - t.offset_from ≤ n) :
    ∀ c ∈ search_fragments tokens terms n,
      c.stop_offset - c.start_offset ≤ n :=
  search_go_span_bounded terms n tokens _ htok (by simp [FragmentCandidate.new])

theorem candidate_span_bounded_witness :
    (∀ t ∈ [(⟨"fox", 4, 7⟩ : Token)], t.offset_to - t.offset_from ≤ 150) ∧
    ∀ c ∈ search_fragments [⟨"fox", 4, 7⟩] tblFox 150,
      c.stop_offset - c.start_offset ≤ 150 :=
  ⟨by decide, candidate_span_bounded _ tblFox _ (by decide)⟩

/-! C6: the selected snippet copies the winner's text and re-bases its
highlights. -/

/-- C6: when a winning fragment exists, the returned Snippet's text is the
source text's sub-range [start_offset, stop_offset) of the winner and its
highlights are exactly the winner's highlights with the winner's start
offset subtracted from both ends, so all offsets are local to the snippet
text. -/
theorem winner_snippet_rebased (frags : List FragmentCandidate) (text : List Char)
    (f : FragmentCandidate) (h : maxByFrag frags = some f) :
    (select_best_fragment_combination frags text).fragments =
      sliceL text f.start_offset f.stop_offset ∧
    (select_best_fragment_combination frags text).highlighted =
      f.highlighted.map (fun item =>
        ⟨item.start - f.start_offset, item.stop - f.start_offset⟩) := by
  simp [select_best_fragment_combination, h]

theorem winner_snippet_rebased_witness :
    (select_best_fragment_combination [⟨1, 2, 5, 0, [⟨3, 4⟩]⟩] "abcdefgh".data).fragments =
      sliceL "abcdefgh".data 2 5 ∧
    (select_best_fragment_combination [⟨1, 2, 5, 0, [⟨3, 4⟩]⟩] "abcdefgh".data).highlighted =
      [(⟨3, 4⟩ : HighlightSection)].map (fun item => ⟨item.start - 2, item.stop - 2⟩) :=
  winner_snippet_rebased [⟨1, 2, 5, 0, [⟨3, 4⟩]⟩] "abcdefgh".data ⟨1, 2, 5, 0, [⟨3, 4⟩]⟩ rfl

/-! C10: the empty snippet renders as the empty string. -/

/-- C10: for the empty Snippet, as returned by Snippet.empty or by snippet
selection when no candidate qualifies, both to_html and to_mark return the
empty string. -/
theorem empty_snippet_renders_empty :
    Snippet.empty.to_html = [] ∧ Snippet.empty.to_mark = [] ∧
    ∀ text : List Char, select_best_fragment_combination [] text = Snippet.empty :=
  ⟨rfl, rfl, fun _ => rfl⟩

/-! C3: comparator characterization and max_by maximality. -/

theorem cmpQ_eq_iff (a b : ℚ) : cmpQ a b = Ordering.eq ↔ a = b := by
  unfold cmpQ
  split_ifs with h1 h2
  · exact iff_of_false (by decide) (ne_of_lt h1)
  · exact iff_of_false (by decide) (ne_of_gt h2)
  · exact iff_of_true rfl (le_antisymm (not_lt.mp h2) (not_lt.mp h1))

theorem cmpQ_gt_iff (a b : ℚ) : cmpQ a b = Ordering.gt ↔ b < a := by
  unfold cmpQ
  split_ifs with h1 h2
  · exact iff_of_false (by decide) (not_lt.mpr (le_of_lt h1))
  · exact iff_of_true rfl h2
  · exact iff_of_false (by decide) h2

theorem cmpNat_gt_iff (a b : Nat) : cmpNat a b = Ordering.gt ↔ b < a := by
  unfold cmpNat
  split_ifs with h1 h2
  · exact iff_of_false (by decide) (by omega)
  · exact iff_of_true rfl h2
  · exact iff_of_false (by decide) h2

theorem cmpNat_eq_iff (a b : Nat) : cmpNat a b = Ordering.eq ↔ a = b := by
  unfold cmpNat
  split_ifs with h1 h2
  · exact iff_of_false (by decide) (by omega)
  · exact iff_of_false (by decide) (by omega)
  · exact iff_of_true rfl (by omega)

theorem cmpNat_lt_iff (a b : Nat) : cmpNat a b = Ordering.lt ↔ a < b := by
  unfold cmpNat
  split_ifs with h1 h2
  · exact iff_of_true rfl h1
  · exact iff_of_false (by decide) h1
  · exact iff_of_false (by decide) h1

theorem cmpPair_gt_iff (p q : Nat × Nat) :
    cmpPair p q = Ordering.gt ↔ (q.1 < p.1 ∨ (p.1 = q.1 ∧ q.2 < p.2)) := by
  unfold cmpPair
  rcases h : cmpNat p.1 q.1 with _ | _ | _
  · have h1 := (cmpNat_lt_iff p.1 q.1).mp h
    show Ordering.lt = Ordering.gt ↔ _
    exact iff_of_false (by decide) (by omega)
  · have h1 := (cmpNat_eq_iff p.1 q.1).mp h
    show cmpNat p.2 q.2 = Ordering.gt ↔ _
    rw [cmpNat_gt_iff]
    omega
  · have h1 := (cmpNat_gt_iff p.1 q.1).mp h
    show Ordering.gt = Ordering.gt ↔ _
    exact iff_of_true rfl (Or.inl h1)

theorem fragCmp_ne_gt (a b : FragmentCandidate) :
    fragCmp a b ≠ Ordering.gt ↔
      (a.score < b.score ∨ (a.score = b.score ∧
        (b.start_offset < a.start_offset ∨
          (b.start_offset = a.start_offset ∧ b.stop_offset ≤ a.stop_offset)))) := by
  simp only [fragCmp]
  by_cases h : cmpQ a.score b.score = Ordering.eq
  · have hab := (cmpQ_eq_iff _ _).mp h
    rw [if_pos h, Ne, cmpPair_gt_iff]
    constructor
    · intro hc
      exact Or.inr ⟨hab, by omega⟩
    · intro hc
      rcases hc with hc | ⟨_, hc⟩
      · rw [hab] at hc
        exact absurd hc (lt_irrefl _)
      · intro hcon
        omega
  · rw [if_neg h, Ne, cmpQ_gt_iff]
    have hne : a.score ≠ b.score := fun he => h ((cmpQ_eq_iff _ _).mpr he)
    constructor
    · intro hc
      exact Or.inl (lt_of_le_of_ne (not_lt.mp hc) hne)
    · intro hc
      rcases hc with hc | ⟨hc, _⟩
      · exact not_lt.mpr (le_of_lt hc)
      · exact absurd hc hne

theorem fragCmp_refl (a : FragmentCandidate) : fragCmp a a ≠ Ordering.gt := by
  rw [fragCmp_ne_gt]
  exact Or.inr ⟨rfl, Or.inr ⟨rfl, le_rfl⟩⟩

theorem fragCmp_trans {a b c : FragmentCandidate}
    (h1 : fragCmp a b ≠ Ordering.gt) (h2 : fragCmp b c ≠ Ordering.gt) :
    fragCmp a c ≠ Ordering.gt := by
  rw [fragCmp_ne_gt] at h1 h2 ⊢
  rcases h1 with h1 | ⟨h1e, h1p⟩
  · rcases h2 with h2 | ⟨h2e, _⟩
    · exact Or.inl (lt_trans h1 h2)
    · exact Or.inl (h2e ▸ h1)
  · rcases h2 with h2 | ⟨h2e, h2p⟩
    · exact Or.inl (h1e ▸ h2)
    · refine Or.inr ⟨h1e.trans h2e, ?_⟩
      rcases h1p with h1p | ⟨h1p1, h1p2⟩ <;> rcases h2p with h2p | ⟨h2p1, h2p2⟩
      · exact Or.inl (by omega)
      · exact Or.inl (by omega)
      · exact Or.inl (by omega)
      · exact Or.inr ⟨by omega, by omega⟩

theorem fragCmp_total (a b : FragmentCandidate) :
    fragCmp a b ≠ Ordering.gt ∨ fragCmp b a ≠ Ordering.gt := by
  rw [fragCmp_ne_gt, fragCmp_ne_gt]
  rcases lt_trichotomy a.score b.score with h | h | h
  · exact Or.inl (Or.inl h)
  · rcases Nat.lt_trichotomy a.start_offset b.start_offset with h1 | h1 | h1
    · exact Or.inr (Or.inr ⟨h.symm, Or.inl h1⟩)
    · rcases Nat.le_total a.stop_offset b.stop_offset with h2 | h2
      · exact Or.inr (Or.inr ⟨h.symm, Or.inr ⟨h1, h2⟩⟩)
      · exact Or.inl (Or.inr ⟨h, Or.inr ⟨h1.symm, h2⟩⟩)
    · exact Or.inl (Or.inr ⟨h, Or.inl h1⟩)
  · exact Or.inr (Or.inl h)

theorem foldl_better_max (l : List FragmentCandidate) (a : FragmentCandidate) :
    (l.foldl betterFrag a = a ∨ l.foldl betterFrag a ∈ l) ∧
    fragCmp a (l.foldl betterFrag a) ≠ Ordering.gt ∧
    ∀ x ∈ l, fragCmp x (l.foldl betterFrag a) ≠ Ordering.gt := by
  induction l generalizing a with
  | nil => exact ⟨Or.inl rfl, fragCmp_refl a, by simp⟩
  | cons b t ih =>
      simp only [List.foldl_cons]
      by_cases h : fragCmp a b = Ordering.gt
      · have hbab : betterFrag a b = a := by
          unfold betterFrag
          rw [if_pos h]
        rw [hbab]
        have IH := ih a
        have hba : fragCmp b a ≠ Ordering.gt :=
          (fragCmp_total a b).resolve_left (not_not_intro h)
        refine ⟨?_, IH.2.1, ?_⟩
        · rcases IH.1 with h1 | h1
          · exact Or.inl h1
          · exact Or.inr (List.mem_cons_of_mem b h1)
        · intro x hx
          rcases List.mem_cons.1 hx with rfl | hx
          · exact fragCmp_trans hba IH.2.1
          · exact IH.2.2 x hx
      · have hbab : betterFrag a b = b := by
          unfold betterFrag
          rw [if_neg h]
        rw [hbab]
        have IH := ih b
        refine ⟨?_, fragCmp_trans h IH.2.1, ?_⟩
        · rcases IH.1 with h1 | h1
          · refine Or.inr ?_
            rw [h1]
            exact List.mem_cons_self b t
          · exact Or.inr (List.mem_cons_of_mem b h1)
        · intro x hx
          rcases List.mem_cons.1 hx with rfl | hx
          · exact IH.2.1
          · exact IH.2.2 x hx

/-- C3: the fragment selector's max_by picks a member of the candidate list
with the maximum score, breaking score ties by the smallest start offset
and remaining ties by the smallest stop offset; in particular for two
equal-score candidates at offsets (5,20) and (30,45), in either input
order, the (5,20) one is selected. -/
theorem selector_max_score_earliest_tiebreak :
    (∀ (frags : List FragmentCandidate) (c : FragmentCandidate),
        maxByFrag frags = some c →
        c ∈ frags ∧ ∀ x ∈ frags,
          x.score < c.score ∨ (x.score = c.score ∧
            (c.start_offset < x.start_offset ∨
              (c.start_offset = x.start_offset ∧ c.stop_offset ≤ x.stop_offset)))) ∧
    (∀ (q : ℚ) (n1 n2 : Nat) (h1 h2 : List HighlightSection),
        maxByFrag [⟨q, 5, 20, n1, h1⟩, ⟨q, 30, 45, n2, h2⟩] = some ⟨q, 5, 20, n1, h1⟩ ∧
        maxByFrag [⟨q, 30, 45, n2, h2⟩, ⟨q, 5, 20, n1, h1⟩] = some ⟨q, 5, 20, n1, h1⟩) := by
  constructor
  · intro frags c hmax
    match frags, hmax with
    | x :: xs, hmax =>
        have hfold := foldl_better_max xs x
        have hc : xs.foldl betterFrag x = c := by
          simpa [maxByFrag] using hmax
        rw [hc] at hfold
        refine ⟨?_, ?_⟩
        · rcases hfold.1 with h1 | h1
          · exact h1 ▸ List.mem_cons_self x xs
          · exact List.mem_cons_of_mem x h1
        · intro y hy
          rcases List.mem_cons.1 hy with rfl | hy
          · exact (fragCmp_ne_gt y c).mp hfold.2.1
          · exact (fragCmp_ne_gt y c).mp (hfold.2.2 y hy)
  · intro q n1 n2 h1 h2
    have hq : cmpQ q q = Ordering.eq := (cmpQ_eq_iff q q).mpr rfl
    constructor
    · simp [maxByFrag, betterFrag, fragCmp, hq, cmpPair, cmpNat]
    · simp [maxByFrag, betterFrag, fragCmp, hq, cmpPair, cmpNat]

theorem selector_tiebreak_witness :
    maxByFrag [⟨1, 5, 20, 0, []⟩, ⟨1, 30, 45, 0, []⟩] = some ⟨1, 5, 20, 0, []⟩ ∧
    maxByFrag [⟨1, 30, 45, 0, []⟩, ⟨1, 5, 20, 0, []⟩] = some ⟨1, 5, 20, 0, []⟩ :=
  selector_max_score_earliest_tiebreak.2 1 0 0 [] []

/-! C5: highlights stay inside their candidate and in stream order. -/

theorem try_add_inv (c : FragmentCandidate) (next : Token) (rest : List Token)
    (terms : String → Option ℚ)
    (hin : ∀ h ∈ c.highlighted, c.start_offset ≤ h.start ∧ h.stop ≤ c.stop_offset)
    (hpw : c.highlighted.Pairwise (fun u v => u.start ≤ v.start ∧ u.stop ≤ v.stop))
    (hstart : c.start_offset ≤ next.offset_from)
    (hhl : ∀ h ∈ c.highlighted, h.start ≤ next.offset_from ∧ h.stop ≤ next.offset_to)
    (hhlr : ∀ h ∈ c.highlighted, ∀ t ∈ rest, h.start ≤ t.offset_from ∧ h.stop ≤ t.offset_to)
    (hpair : ∀ t ∈ rest, next.offset_from ≤ t.offset_from ∧ next.offset_to ≤ t.offset_to) :
    (∀ h ∈ (c.try_add_token next terms).highlighted,
        (c.try_add_token next terms).start_offset ≤ h.start ∧
        h.stop ≤ (c.try_add_token next terms).stop_offset) ∧
    (c.try_add_token next terms).highlighted.Pairwise
      (fun u v => u.start ≤ v.start ∧ u.stop ≤ v.stop) ∧
    (∀ h ∈ (c.try_add_token next terms).highlighted, ∀ t ∈ rest,
        h.start ≤ t.offset_from ∧ h.stop ≤ t.offset_to) := by
  rcases hm : terms (toLowercase next.text) with _ | q
  · rw [try_add_of_none hm]
    refine ⟨?_, hpw, hhlr⟩
    intro h hh
    exact ⟨(hin h hh).1, (hhl h hh).2⟩
  · rw [try_add_of_some hm]
    refine ⟨?_, ?_, ?_⟩
    · intro h hh
      rcases List.mem_append.1 hh with hh | hh
      · exact ⟨(hin h hh).1, (hhl h hh).2⟩
      · rcases List.mem_singleton.1 hh with rfl
        exact ⟨hstart, le_rfl⟩
    · rw [List.pairwise_append]
      refine ⟨hpw, List.pairwise_singleton _ _, ?_⟩
      intro u hu v hv
      rcases List.mem_singleton.1 hv with rfl
      exact hhl u hu
    · intro h hh t ht
      rcases List.mem_append.1 hh with hh | hh
      · exact hhlr h hh t ht
      · rcases List.mem_singleton.1 hh with rfl
        exact hpair t ht

theorem search_go_highlights (terms : String → Option ℚ) (n : Nat) :
    ∀ (tokens : List Token) (fragment : FragmentCandidate),
      List.Pairwise (fun u v : Token =>
        u.offset_from ≤ v.offset_from ∧ u.offset_to ≤ v.offset_to) tokens →
      (∀ h ∈ fragment.highlighted,
        fragment.start_offset ≤ h.start ∧ h.stop ≤ fragment.stop_offset) →
      fragment.highlighted.Pairwise (fun u v => u.start ≤ v.start ∧ u.stop ≤ v.stop) →
      (∀ t ∈ tokens, fragment.start_offset ≤ t.offset_from) →
      (∀ h ∈ fragment.highlighted, ∀ t ∈ tokens,
        h.start ≤ t.offset_from ∧ h.stop ≤ t.offset_to) →
      ∀ c ∈ search_fragments_go terms n tokens fragment,
        (∀ h ∈ c.highlighted, c.start_offset ≤ h.start ∧ h.stop ≤ c.stop_offset) ∧
        c.highlighted.Pairwise (fun u v => u.start ≤ v.start ∧ u.stop ≤ v.stop) := by
  intro tokens
  induction tokens with
  | nil =>
      intro fragment _ hin hpw _ _ c hc
      simp only [search_fragments_go] at hc
      split at hc
      · rcases List.mem_singleton.1 hc with rfl
        exact ⟨hin, hpw⟩
      · exact absurd hc (by simp)
  | cons next rest ih =>
      intro fragment hord hin hpw hstart hhl c hc
      rcases List.pairwise_cons.1 hord with ⟨hpair, hord'⟩
      have hstart_next : fragment.start_offset ≤ next.offset_from :=
        hstart next (by simp)
      have hhl_next : ∀ h ∈ fragment.highlighted,
          h.start ≤ next.offset_from ∧ h.stop ≤ next.offset_to :=
        fun h hh => hhl h hh next (by simp)
      have hhl_rest : ∀ h ∈ fragment.highlighted, ∀ t ∈ rest,
          h.start ≤ t.offset_from ∧ h.stop ≤ t.offset_to :=
        fun h hh t ht => hhl h hh t (by simp [ht])
      simp only [search_fragments_go] at hc
      split at hc
      · rcases List.mem_append.1 hc with h1 | h1
        · split at h1
          · rcases List.mem_singleton.1 h1 with rfl
            exact ⟨hin, hpw⟩
          · exact absurd h1 (by simp)
        · have hbase := try_add_inv (FragmentCandidate.new next.offset_from) next rest terms
            (by simp [FragmentCandidate.new]) (by simp [FragmentCandidate.new])
            le_rfl (by simp [FragmentCandidate.new]) (by simp [FragmentCandidate.new]) hpair
          refine ih _ hord' hbase.1 hbase.2.1 ?_ hbase.2.2 c h1
          intro t ht
          rw [try_add_start]
          exact (hpair t ht).1
      · have hadd := try_add_inv fragment next rest terms hin hpw hstart_next
          hhl_next hhl_rest hpair
        refine ih _ hord' hadd.1 hadd.2.1 ?_ hadd.2.2 c hc
        intro t ht
        rw [try_add_start]
        exact hstart t (by simp [ht])

/-- C5: for every fragment candidate produced by search_fragments from a
token stream in source order (offsets non-decreasing along the stream), the
candidate's start offset is ≤ every highlight's start, every highlight's
stop is ≤ the candidate's stop offset, and the highlight intervals appear
in non-decreasing offset order. -/
theorem candidate_highlights_ordered_within (tokens : List Token)
    (terms : String → Option ℚ) (n : Nat)
    (hord : List.Pairwise (fun u v : Token =>
      u.offset_from ≤ v.offset_from ∧ u.offset_to ≤ v.offset_to) tokens) :
    ∀ c ∈ search_fragments tokens terms n,
      (∀ h ∈ c.highlighted, c.start_offset ≤ h.start ∧ h.stop ≤ c.stop_offset) ∧
      c.highlighted.Pairwise (fun u v => u.start ≤ v.start ∧ u.stop ≤ v.stop) :=
  search_go_highlights terms n tokens _ hord
    (by simp [FragmentCandidate.new]) (by simp [FragmentCandidate.new])
    (fun _ _ => Nat.zero_le _) (by simp [FragmentCandidate.new])

theorem candidate_highlights_witness :
    List.Pairwise (fun u v : Token =>
      u.offset_from ≤ v.offset_from ∧ u.offset_to ≤ v.offset_to)
      [⟨"the", 0, 3⟩, ⟨"fox", 4, 7⟩] ∧
    ∀ c ∈ search_fragments [⟨"the", 0, 3⟩, ⟨"fox", 4, 7⟩] tblFox 50,
      (∀ h ∈ c.highlighted, c.start_offset ≤ h.start ∧ h.stop ≤ c.stop_offset) ∧
      c.highlighted.Pairwise (fun u v => u.start ≤ v.start ∧ u.stop ≤ v.stop) :=
  ⟨by decide, candidate_highlights_ordered_within _ tblFox _ (by decide)⟩

/-! C7 and C8: renderer segment decomposition, round trip, and escaping. -/

theorem sliceL_append {l : List Char} {a b c : Nat} (h1 : a ≤ b) (h2 : b ≤ c) :
    sliceL l a b ++ sliceL l b c = sliceL l a c := by
  unfold sliceL
  have hca : c - a = (b - a) + (c - b) := by omega
  have hd : l.drop b = (l.drop a).drop (b - a) := by
    rw [List.drop_drop]
    congr 1
    omega
  rw [hca, List.take_add, hd]

theorem sliceL_zero_length (l : List Char) : sliceL l 0 l.length = l := by
  simp [sliceL]

theorem hlWF_le {len : Nat} :
    ∀ {hl : List HighlightSection} {cur : Nat}, hlWF len cur hl = true → cur ≤ len := by
  intro hl
  induction hl with
  | nil =>
      intro cur h
      simpa [hlWF] using h
  | cons item rest ih =>
      intro cur h
      simp only [hlWF, Bool.and_eq_true, decide_eq_true_eq] at h
      rcases h with ⟨⟨h1, h2⟩, h3⟩
      have := ih h3
      omega

theorem renderSegments_flatten (frags : List Char) :
    ∀ (hl : List HighlightSection) (cur : Nat),
      hlWF frags.length cur hl = true →
      (renderSegments frags cur hl).flatten = sliceL frags cur frags.length := by
  intro hl
  induction hl with
  | nil =>
      intro cur _
      simp [renderSegments]
  | cons item rest ih =>
      intro cur h
      simp only [hlWF, Bool.and_eq_true, decide_eq_true_eq] at h
      rcases h with ⟨⟨h1, h2⟩, h3⟩
      have hstop : item.stop ≤ frags.length := hlWF_le h3
      simp only [renderSegments, List.flatten_cons]
      rw [ih item.stop h3, sliceL_append h2 hstop, sliceL_append h1 (le_trans h2 hstop)]

theorem toMarkAux_segments (frags : List Char) :
    ∀ (hl : List HighlightSection) (cur : Nat),
      toMarkAux frags cur hl = markedConcat (renderSegments frags cur hl) := by
  intro hl
  induction hl with
  | nil => intro cur; rfl
  | cons item rest ih =>
      intro cur
      simp only [toMarkAux, renderSegments, markedConcat]
      rw [ih]

theorem toHtmlAux_segments (frags : List Char) :
    ∀ (hl : List HighlightSection) (cur : Nat),
      toHtmlAux frags cur hl =
        markedConcat ((renderSegments frags cur hl).map encodeMinimal) := by
  intro hl
  induction hl with
  | nil => intro cur; rfl
  | cons item rest ih =>
      intro cur
      simp only [toHtmlAux, renderSegments, List.map_cons, markedConcat]
      rw [ih]

theorem decode_step_quot (tail : List Char) :
    decodeMinimal ('&' :: 'q' :: 'u' :: 'o' :: 't' :: ';' :: tail) =
      '"' :: decodeMinimal tail := rfl

theorem decode_step_amp (tail : List Char) :
    decodeMinimal ('&' :: 'a' :: 'm' :: 'p' :: ';' :: tail) =
      '&' :: decodeMinimal tail := rfl

theorem decode_step_apos (tail : List Char) :
    decodeMinimal ('&' :: '#' :: 'x' :: '2' :: '7' :: ';' :: tail) =
      quoteChar :: decodeMinimal tail := rfl

theorem decode_step_lt (tail : List Char) :
    decodeMinimal ('&' :: 'l' :: 't' :: ';' :: tail) = '<' :: decodeMinimal tail := rfl

theorem decode_step_gt (tail : List Char) :
    decodeMinimal ('&' :: 'g' :: 't' :: ';' :: tail) = '>' :: decodeMinimal tail := rfl

set_option maxHeartbeats 2000000 in
theorem decodeMinimal_cons {c : Char} (l : List Char) (h : c ≠ '&') :
    decodeMinimal (c :: l) = c :: decodeMinimal l := by
  rw [decodeMinimal]
  all_goals intro r hc _
  all_goals exact h hc

theorem encodeChar_quote :
    encodeChar quoteChar = '&' :: '#' :: 'x' :: '2' :: '7' :: ';' :: [] := by
  unfold encodeChar
  rw [if_neg (by decide), if_neg (by decide), if_pos rfl]

theorem decode_encode (l : List Char) : decodeMinimal (encodeMinimal l) = l := by
  induction l with
  | nil => rfl
  | cons c rest ih =>
      have hstep : encodeMinimal (c :: rest) = encodeChar c ++ encodeMinimal rest := by
        simp [encodeMinimal]
      rw [hstep]
      by_cases h1 : c = '"'
      · subst h1
        rw [show encodeChar '"' = '&' :: 'q' :: 'u' :: 'o' :: 't' :: ';' :: [] from rfl]
        simp only [List.cons_append, List.nil_append]
        rw [decode_step_quot, ih]
      · by_cases h2 : c = '&'
        · subst h2
          rw [show encodeChar '&' = '&' :: 'a' :: 'm' :: 'p' :: ';' :: [] from rfl]
          simp only [List.cons_append, List.nil_append]
          rw [decode_step_amp, ih]
        · by_cases h3 : c = quoteChar
          · subst h3
            rw [encodeChar_quote]
            simp only [List.cons_append, List.nil_append]
            rw [decode_step_apos, ih]
          · by_cases h4 : c = '<'
            · subst h4
              rw [show encodeChar '<' = '&' :: 'l' :: 't' :: ';' :: [] from rfl]
              simp only [List.cons_append, List.nil_append]
              rw [decode_step_lt, ih]
            · by_cases h5 : c = '>'
              · subst h5
                rw [show encodeChar '>' = '&' :: 'g' :: 't' :: ';' :: [] from rfl]
                simp only [List.cons_append, List.nil_append]
                rw [decode_step_gt, ih]
              · have he : encodeChar c = [c] := by
                  simp [encodeChar, h1, h2, h3, h4, h5]
                rw [he, List.singleton_append, decodeMinimal_cons _ h2, ih]

theorem escaped_step_quot (tail : List Char) :
    escapedOK ('&' :: 'q' :: 'u' :: 'o' :: 't' :: ';' :: tail) = escapedOK tail := rfl

theorem escaped_step_amp (tail : List Char) :
    escapedOK ('&' :: 'a' :: 'm' :: 'p' :: ';' :: tail) = escapedOK tail := rfl

theorem escaped_step_apos (tail : List Char) :
    escapedOK ('&' :: '#' :: 'x' :: '2' :: '7' :: ';' :: tail) = escapedOK tail := rfl

theorem escaped_step_lt (tail : List Char) :
    escapedOK ('&' :: 'l' :: 't' :: ';' :: tail) = escapedOK tail := rfl

theorem escaped_step_gt (tail : List Char) :
    escapedOK ('&' :: 'g' :: 't' :: ';' :: tail) = escapedOK tail := rfl

set_option maxHeartbeats 2000000 in
theorem escapedOK_cons {c : Char} (l : List Char) (h : c ≠ '&') :
    escapedOK (c :: l) =
      ((!(c = '&' || c = '<' || c = '>' || c = '"' || c = quoteChar)) && escapedOK l) := by
  rw [escapedOK]
  all_goals intro r hc _
  all_goals exact h hc

theorem escapedOK_encode (l : List Char) : escapedOK (encodeMinimal l) = true := by
  induction l with
  | nil => rfl
  | cons c rest ih =>
      have hstep : encodeMinimal (c :: rest) = encodeChar c ++ encodeMinimal rest := by
        simp [encodeMinimal]
      rw [hstep]
      by_cases h1 : c = '"'
      · subst h1
        rw [show encodeChar '"' = '&' :: 'q' :: 'u' :: 'o' :: 't' :: ';' :: [] from rfl]
        simp only [List.cons_append, List.nil_append]
        rw [escaped_step_quot, ih]
      · by_cases h2 : c = '&'
        · subst h2
          rw [show encodeChar '&' = '&' :: 'a' :: 'm' :: 'p' :: ';' :: [] from rfl]
          simp only [List.cons_append, List.nil_append]
          rw [escaped_step_amp, ih]
        · by_cases h3 : c = quoteChar
          · subst h3
            rw [encodeChar_quote]
            simp only [List.cons_append, List.nil_append]
            rw [escaped_step_apos, ih]
          · by_cases h4 : c = '<'
            · subst h4
              rw [show encodeChar '<' = '&' :: 'l' :: 't' :: ';' :: [] from rfl]
              simp only [List.cons_append, List.nil_append]
              rw [escaped_step_lt, ih]
            · by_cases h5 : c = '>'
              · subst h5
                rw [show encodeChar '>' = '&' :: 'g' :: 't' :: ';' :: [] from rfl]
                simp only [List.cons_append, List.nil_append]
                rw [escaped_step_gt, ih]
              · have he : encodeChar c = [c] := by
                  simp [encodeChar, h1, h2, h3, h4, h5]
                rw [he, List.singleton_append, escapedOK_cons _ h2, ih]
                simp [h1, h2, h3, h4, h5]

theorem encode_no_specials (l : List Char) :
    ∀ d ∈ encodeMinimal l, d ≠ '<' ∧ d ≠ '>' ∧ d ≠ '"' ∧ d ≠ quoteChar := by
  induction l with
  | nil =>
      intro d hd
      exact absurd hd (by simp [encodeMinimal])
  | cons c rest ih =>
      intro d hd
      rw [show encodeMinimal (c :: rest) = encodeChar c ++ encodeMinimal rest from by
        simp [encodeMinimal]] at hd
      rcases List.mem_append.1 hd with hd | hd
      · unfold encodeChar at hd
        split_ifs at hd with h1 h2 h3 h4 h5
        · fin_cases hd <;> decide
        · fin_cases hd <;> decide
        · fin_cases hd <;> decide
        · fin_cases hd <;> decide
        · fin_cases hd <;> decide
        · rcases List.mem_singleton.1 hd with rfl
          exact ⟨h4, h5, h1, h3⟩
      · exact ih d hd

/-- C7: for every Snippet whose highlights are in non-decreasing,
non-overlapping order within its text, the rendered markup is exactly the
in-order segment list joined with the markers (raw segments for to_mark,
escaped segments for to_html); concatenating the segments after stripping
the markers, undoing the entity escaping in escaped mode, reproduces the
Snippet's own fragment text exactly. -/
theorem render_round_trip (s : Snippet)
    (hwf : hlWF s.fragments.length 0 s.highlighted = true) :
    s.to_mark = markedConcat (renderSegments s.fragments 0 s.highlighted) ∧
    s.to_html = markedConcat
      ((renderSegments s.fragments 0 s.highlighted).map encodeMinimal) ∧
    (renderSegments s.fragments 0 s.highlighted).flatten = s.fragments ∧
    (((renderSegments s.fragments 0 s.highlighted).map encodeMinimal).map
      decodeMinimal).flatten = s.fragments := by
  have h3 : (renderSegments s.fragments 0 s.highlighted).flatten = s.fragments := by
    rw [renderSegments_flatten s.fragments s.highlighted 0 hwf, sliceL_zero_length]
  refine ⟨toMarkAux_segments _ _ _, toHtmlAux_segments _ _ _, h3, ?_⟩
  rw [List.map_map, show decodeMinimal ∘ encodeMinimal = id from funext decode_encode,
    List.map_id, h3]

theorem render_round_trip_witness :
    hlWF snipW.fragments.length 0 snipW.highlighted = true ∧
    (snipW.to_mark = markedConcat (renderSegments snipW.fragments 0 snipW.highlighted) ∧
     snipW.to_html = markedConcat
       ((renderSegments snipW.fragments 0 snipW.highlighted).map encodeMinimal) ∧
     (renderSegments snipW.fragments 0 snipW.highlighted).flatten = snipW.fragments ∧
     (((renderSegments snipW.fragments 0 snipW.highlighted).map encodeMinimal).map
       decodeMinimal).flatten = snipW.fragments) :=
  ⟨by decide, render_round_trip snipW (by decide)⟩

/-- C8: the escaped markup of every Snippet is the marker-joined list of
entity-escaped text segments, the markers inserted verbatim; no escaped
segment contains a raw angle bracket or quote character, and every
ampersand inside a segment starts one of the five escape entities. -/
theorem to_html_escaped (s : Snippet) :
    s.to_html = markedConcat
      ((renderSegments s.fragments 0 s.highlighted).map encodeMinimal) ∧
    ∀ seg ∈ (renderSegments s.fragments 0 s.highlighted).map encodeMinimal,
      escapedOK seg = true ∧
      ∀ d ∈ seg, d ≠ '<' ∧ d ≠ '>' ∧ d ≠ '"' ∧ d ≠ quoteChar := by
  refine ⟨toHtmlAux_segments _ _ _, ?_⟩
  intro seg hseg
  rcases List.mem_map.1 hseg with ⟨x, _, rfl⟩
  exact ⟨escapedOK_encode x, encode_no_specials x⟩

theorem to_html_escaped_witness :
    snipW.to_html = markedConcat
      ((renderSegments snipW.fragments 0 snipW.highlighted).map encodeMinimal) ∧
    ∀ seg ∈ (renderSegments snipW.fragments 0 snipW.highlighted).map encodeMinimal,
      escapedOK seg = true ∧
      ∀ d ∈ seg, d ≠ '<' ∧ d ≠ '>' ∧ d ≠ '"' ∧ d ≠ quoteChar :=
  to_html_escaped snipW

/-! C9: characterization of the term weight table built by create. -/

theorem Term.ext_eq {t u : Term} (h1 : t.field = u.field) (h2 : t.text = u.text) :
    t = u := by
  cases t
  cases u
  simp_all

theorem create_terms_text_spec (doc_freq : Term → Option Nat) (field : Nat) :
    ∀ (l : List Term) (acc tt : String → Option ℚ),
      create_terms_text doc_freq field l acc = some tt →
      ∀ (s : String) (w : ℚ),
        (tt s = some w ↔
          ((∃ t ∈ l, t.field = field ∧ t.text = s ∧
              ∃ d, doc_freq t = some d ∧ 0 < d ∧ w = term_weight d) ∨
            ((∀ t ∈ l, ¬(t.field = field ∧ t.text = s ∧
                ∃ d, doc_freq t = some d ∧ 0 < d)) ∧ acc s = some w))) := by
  intro l
  induction l with
  | nil =>
      intro acc tt h s w
      simp only [create_terms_text] at h
      injection h with h
      subst h
      simp
  | cons term rest ih =>
      intro acc tt h s w
      simp only [create_terms_text] at h
      by_cases hf : term.field ≠ field
      · rw [if_pos hf] at h
        rw [ih acc tt h s w]
        constructor
        · intro hc
          rcases hc with ⟨t, ht, hC⟩ | ⟨hall, hacc⟩
          · exact Or.inl ⟨t, List.mem_cons_of_mem _ ht, hC⟩
          · refine Or.inr ⟨?_, hacc⟩
            intro t ht
            rcases List.mem_cons.1 ht with rfl | ht
            · intro hD
              exact hf hD.1
            · exact hall t ht
        · intro hc
          rcases hc with ⟨t, ht, hC⟩ | ⟨hall, hacc⟩
          · rcases List.mem_cons.1 ht with rfl | ht
            · exact absurd hC.1 hf
            · exact Or.inl ⟨t, ht, hC⟩
          · exact Or.inr ⟨fun t ht => hall t (List.mem_cons_of_mem _ ht), hacc⟩
      · rw [if_neg hf] at h
        push_neg at hf
        rcases hdf : doc_freq term with _ | d
        · simp only [hdf] at h
          exact Option.noConfusion h
        · simp only [hdf] at h
          by_cases hd : 0 < d
          · rw [if_pos hd] at h
            rw [ih _ tt h s w]
            by_cases hs : s = term.text
            · constructor
              · intro hc
                rcases hc with ⟨t, ht, hC⟩ | ⟨hall, hacc⟩
                · exact Or.inl ⟨t, List.mem_cons_of_mem _ ht, hC⟩
                · rw [if_pos hs] at hacc
                  injection hacc with hacc
                  exact Or.inl ⟨term, List.mem_cons_self _ _,
                    hf, hs.symm, d, hdf, hd, hacc.symm⟩
              · intro hc
                rcases hc with ⟨t, ht, hC⟩ | ⟨hall, hacc⟩
                · rcases List.mem_cons.1 ht with rfl | htr
                  · rcases hC with ⟨_, _, d', hdf', hd', hw⟩
                    rw [hdf] at hdf'
                    injection hdf' with hdd
                    subst hdd
                    by_cases hex : ∃ u ∈ rest, u.field = field ∧ u.text = s ∧
                        ∃ e, doc_freq u = some e ∧ 0 < e ∧ w = term_weight e
                    · exact Or.inl hex
                    · refine Or.inr ⟨?_, ?_⟩
                      · intro u hu hD
                        have hu_eq : u = t :=
                          Term.ext_eq (hD.1.trans hf.symm) (hD.2.1.trans hs)
                        subst hu_eq
                        exact hex ⟨u, hu, hD.1, hD.2.1, d, hdf, hd', hw⟩
                      · rw [if_pos hs, hw]
                  · exact Or.inl ⟨t, htr, hC⟩
                · exact absurd ⟨hf, hs.symm, d, hdf, hd⟩
                    (hall term (List.mem_cons_self _ _))
            · constructor
              · intro hc
                rcases hc with ⟨t, ht, hC⟩ | ⟨hall, hacc⟩
                · exact Or.inl ⟨t, List.mem_cons_of_mem _ ht, hC⟩
                · rw [if_neg hs] at hacc
                  refine Or.inr ⟨?_, hacc⟩
                  intro t ht
                  rcases List.mem_cons.1 ht with rfl | ht
                  · intro hD
                    exact hs hD.2.1.symm
                  · exact hall t ht
              · intro hc
                rcases hc with ⟨t, ht, hC⟩ | ⟨hall, hacc⟩
                · rcases List.mem_cons.1 ht with rfl | htr
                  · exact absurd hC.2.1.symm hs
                  · exact Or.inl ⟨t, htr, hC⟩
                · refine Or.inr ⟨fun t ht => hall t (List.mem_cons_of_mem _ ht), ?_⟩
                  rw [if_neg hs]
                  exact hacc
          · rw [if_neg hd] at h
            rw [ih acc tt h s w]
            constructor
            · intro hc
              rcases hc with ⟨t, ht, hC⟩ | ⟨hall, hacc⟩
              · exact Or.inl ⟨t, List.mem_cons_of_mem _ ht, hC⟩
              · refine Or.inr ⟨?_, hacc⟩
                intro t ht
                rcases List.mem_cons.1 ht with rfl | ht
                · rintro ⟨_, _, d', hdf', hd'⟩
                  rw [hdf] at hdf'
                  injection hdf' with hdd
                  subst hdd
                  exact hd hd'
                · exact hall t ht
            · intro hc
              rcases hc with ⟨t, ht, hC⟩ | ⟨hall, hacc⟩
              · rcases List.mem_cons.1 ht with rfl | htr
                · rcases hC with ⟨_, _, d', hdf', hd', _⟩
                  rw [hdf] at hdf'
                  injection hdf' with hdd
                  subst hdd
                  exact absurd hd' hd
                · exact Or.inl ⟨t, htr, hC⟩
              · exact Or.inr ⟨fun t ht => hall t (List.mem_cons_of_mem _ ht), hacc⟩

/-- C9: after a successful create(searcher, query, field), the generator's
term weight table contains exactly the query's terms of the given field
whose document frequency is positive (zero-frequency terms are dropped),
each mapped to the weight 1/(1+document_frequency), and the generator's
maximum length is initialized to 150. -/
theorem create_table_characterization (doc_freq : Term → Option Nat)
    (query_terms : List Term) (field : Nat) (g : SnippetGenerator)
    (h : SnippetGenerator.create doc_freq query_terms field = some g) :
    g.max_num_chars = 150 ∧
    ∀ (s : String) (w : ℚ),
      g.terms_text s = some w ↔
        ∃ t ∈ query_terms, t.field = field ∧ t.text = s ∧
          ∃ d, doc_freq t = some d ∧ 0 < d ∧ w = 1 / (1 + (d : ℚ)) := by
  unfold SnippetGenerator.create at h
  rcases hm : create_terms_text doc_freq field query_terms (fun _ => none) with _ | tt
  · rw [hm] at h
    cases h
  · rw [hm] at h
    injection h with h
    subst h
    refine ⟨rfl, ?_⟩
    intro s w
    rw [show (SnippetGenerator.mk tt field DEFAULT_MAX_NUM_CHARS).terms_text = tt from rfl,
      create_terms_text_spec doc_freq field query_terms (fun _ => none) tt hm s w]
    constructor
    · intro hc
      rcases hc with ⟨t, ht, h1, h2, d, h3, h4, h5⟩ | ⟨_, hacc⟩
      · exact ⟨t, ht, h1, h2, d, h3, h4, h5⟩
      · cases hacc
    · intro hc
      exact Or.inl hc

theorem create_table_witness :
    SnippetGenerator.create dfW [⟨0, "fox"⟩] 0 = some genW ∧
    (genW.max_num_chars = 150 ∧
     ∀ (s : String) (w : ℚ),
       genW.terms_text s = some w ↔
         ∃ t ∈ [(⟨0, "fox"⟩ : Term)], t.field = 0 ∧ t.text = s ∧
           ∃ d, dfW t = some d ∧ 0 < d ∧ w = 1 / (1 + (d : ℚ))) :=
  ⟨rfl, create_table_characterization dfW [⟨0, "fox"⟩] 0 genW rfl⟩
